import Mathlib

/-!
# Verification of the coin-sorter controller

A shallow embedding, in Lean 4, of the control core of the coin-sorter
firmware (`src/coin_sorter/coin_sorter.ino`), together with proofs of the
behavioural properties stated in its specification.

Modelling conventions, used throughout:

* The C `long` total is modelled as an unbounded `Int` (signed overflow of
  `long` is undefined behaviour in C++ and outside any stated property; all
  reachable totals are far below `2 ^ 31`).
* `millis()` timestamps are modelled as monotonically non-decreasing `Nat`
  values; the firmware's unsigned subtraction `now - last` coincides with
  `Nat` subtraction whenever `last ≤ now`, which holds along every
  monotonic run.
* The EEPROM is a byte store `Nat → Nat`; an erased (never written) cell
  reads `0xFF`, as on AVR hardware.
* The NeoPixel frame buffer is a list of 160 colour words; `strip.show()`
  (the transmission of the buffer to the physical strip) is outside the
  model, exactly as the specification scopes it out.
-/

namespace CoinSorter

/-! ## Configuration constants (from the `#define` block of the sketch) -/

def MATRIX_WIDTH : Nat := 32

def MATRIX_HEIGHT : Nat := 5

def LED_COUNT : Nat := 160

def FIREWORK_INTERVAL : Int := 1000

def DEBOUNCE_DELAY : Nat := 10

def EEPROM_TOTAL_ADDRESS : Nat := 0

def EEPROM_MAGIC_NUMBER : Nat := 0xAA55

/-! ## Ledger: `addCoin`, `addDollar`, `subtractDollar`

The milestone computation appears verbatim in both `addCoin` (lines
262-268) and `addDollar` (lines 598-604); it is factored here into
`milestoneCrossed`.  C integer division on `long` truncates toward zero,
which is `Int.tdiv`. -/

/-- The milestone test duplicated in `addCoin` and `addDollar`:
`totalAmount / FIREWORK_INTERVAL > previousAmount / FIREWORK_INTERVAL`
with C (truncating) division. -/
def milestoneCrossed (previousAmount totalAmount : Int) : Bool :=
  decide (Int.tdiv previousAmount FIREWORK_INTERVAL <
    Int.tdiv totalAmount FIREWORK_INTERVAL)

/-- `addCoin(value)` (lines 255-269): adds the coin value to the total and
reports whether a firework milestone was crossed (the display update is
frame output, outside the ledger state). -/
def addCoin (totalAmount value : Int) : Int × Bool :=
  let newTotal := totalAmount + value
  (newTotal, milestoneCrossed totalAmount newTotal)

/-- `addDollar()` (lines 583-605): adds 100 cents and reports a milestone
crossing, as `addCoin` does. -/
def addDollar (totalAmount : Int) : Int × Bool :=
  let newTotal := totalAmount + 100
  (newTotal, milestoneCrossed totalAmount newTotal)

/-- `subtractDollar()` (lines 607-630): subtracts 100 cents only when the
total stays non-negative; otherwise the total is left unchanged (the red
error flash is frame output, outside the ledger state). -/
def subtractDollar (totalAmount : Int) : Int :=
  if totalAmount ≥ 100 then totalAmount - 100 else totalAmount

/-- The four coin denominations, in cents (`COIN_VALUES`, line 127). -/
def COIN_VALUES : List Int := [1, 5, 10, 25]

/-- The three operations that mutate `totalAmount`. -/
inductive LedgerOp where
  | coin : Int → LedgerOp
  | dollarAdd : LedgerOp
  | dollarSubtract : LedgerOp
deriving DecidableEq

/-- Apply one ledger operation to a total. -/
def applyOp (totalAmount : Int) : LedgerOp → Int
  | .coin v => (addCoin totalAmount v).1
  | .dollarAdd => (addDollar totalAmount).1
  | .dollarSubtract => subtractDollar totalAmount

theorem foldl_addCoin_eq_sum (l : List Int) :
    ∀ t : Int, l.foldl (fun a v => (addCoin a v).1) t = t + l.sum := by
  induction l with
  | nil => intro t; simp
  | cons v tl ih =>
      intro t
      rw [List.foldl_cons, ih, List.sum_cons]
      simp only [addCoin]
      ring

theorem foldl_applyOp_nonneg (ops : List LedgerOp) :
    ∀ t : Int, 0 ≤ t → (∀ v, LedgerOp.coin v ∈ ops → v ∈ COIN_VALUES) →
      0 ≤ ops.foldl applyOp t := by
  induction ops with
  | nil => intro t ht _; simpa using ht
  | cons op tl ih =>
      intro t ht hmem
      have htl : ∀ v, LedgerOp.coin v ∈ tl → v ∈ COIN_VALUES := by
        intro v hv
        exact hmem v (List.mem_cons_of_mem _ hv)
      have hstep : 0 ≤ applyOp t op := by
        cases op with
        | coin v =>
            have hv : v ∈ COIN_VALUES := hmem v (List.mem_cons_self _ _)
            have hvpos : 0 < v := by
              simp only [COIN_VALUES, List.mem_cons, List.mem_singleton,
                List.not_mem_nil, or_false] at hv
              rcases hv with h | h | h | h <;> omega
            simp only [applyOp, addCoin]
            omega
        | dollarAdd =>
            simp only [applyOp, addDollar]
            omega
        | dollarSubtract =>
            simp only [applyOp, subtractDollar]
            split <;> omega
      simpa using ih (applyOp t op) hstep htl

/-- **C1.** Starting from total 0, a sequence of coin deposits leaves the
total equal to the sum of the deposited denominations; any sequence of
operations (coin deposit, manual dollar add, manual dollar subtract) keeps
the total non-negative; and a manual subtraction on a total below 100
cents is a no-op that leaves the total unchanged. -/
theorem c1_total_is_deposit_sum_and_nonneg :
    (∀ deposits : List Int,
      deposits.foldl (fun t v => (addCoin t v).1) 0 = deposits.sum) ∧
    (∀ ops : List LedgerOp,
      (∀ v, LedgerOp.coin v ∈ ops → v ∈ COIN_VALUES) →
        0 ≤ ops.foldl applyOp 0) ∧
    (∀ t : Int, 0 ≤ t → t < 100 → subtractDollar t = t) := by
  refine ⟨fun deposits => ?_, fun ops hmem => ?_, fun t _ ht => ?_⟩
  · simpa using foldl_addCoin_eq_sum deposits 0
  · exact foldl_applyOp_nonneg ops 0 le_rfl hmem
  · simp only [subtractDollar]
    split <;> omega

/-- Witness for C1 at a concrete run: a quarter, a manual dollar add and a
manual dollar subtract starting from 0 keep the total non-negative, and a
subtraction at total 25 is a no-op. -/
theorem c1_total_is_deposit_sum_and_nonneg_witness :
    0 ≤ [LedgerOp.coin 25, LedgerOp.dollarAdd,
      LedgerOp.dollarSubtract].foldl applyOp 0 ∧
    subtractDollar 25 = 25 := by
  constructor
  · refine c1_total_is_deposit_sum_and_nonneg.2.1 _ ?_
    intro v hv
    simp only [List.mem_cons, List.not_mem_nil, or_false] at hv
    rcases hv with h | h | h
    · cases h; decide
    · exact absurd h (by simp)
    · exact absurd h (by simp)
  · exact c1_total_is_deposit_sum_and_nonneg.2.2 25 (by decide) (by decide)

theorem milestoneCrossed_iff_fdiv (prev cur : Int) (hp : 0 ≤ prev)
    (hc : 0 ≤ cur) :
    milestoneCrossed prev cur = true ↔
      Int.fdiv prev FIREWORK_INTERVAL < Int.fdiv cur FIREWORK_INTERVAL := by
  have h1000 : (0 : Int) ≤ FIREWORK_INTERVAL := by decide
  rw [milestoneCrossed, decide_eq_true_iff,
    Int.fdiv_eq_tdiv hp h1000, Int.fdiv_eq_tdiv hc h1000]

/-- **C2.** For every delta applied by `addCoin` or `addDollar`, the
milestone-crossed signal fires iff the floor of `total / interval`
strictly increased (on the non-negative totals of every reachable state,
the C truncating division used by the code is floor division); with the
interval 1000 of the code, a change 950 → 1050 fires and 950 → 990 does
not. -/
theorem c2_milestone_crossing_iff_floor_increased :
    (∀ prev cur : Int, 0 ≤ prev → 0 ≤ cur →
      (milestoneCrossed prev cur = true ↔
        Int.fdiv prev FIREWORK_INTERVAL < Int.fdiv cur FIREWORK_INTERVAL)) ∧
    (∀ t v : Int, addCoin t v = (t + v, milestoneCrossed t (t + v))) ∧
    (∀ t : Int, addDollar t = (t + 100, milestoneCrossed t (t + 100))) ∧
    milestoneCrossed 950 1050 = true ∧
    milestoneCrossed 950 990 = false := by
  refine ⟨milestoneCrossed_iff_fdiv, fun t v => rfl, fun t => rfl,
    by decide, by decide⟩

/-- Witness for C2 at the concrete crossing 950 → 1050. -/
theorem c2_milestone_crossing_iff_floor_increased_witness :
    milestoneCrossed 950 1050 = true ↔
      Int.fdiv 950 FIREWORK_INTERVAL < Int.fdiv 1050 FIREWORK_INTERVAL :=
  c2_milestone_crossing_iff_floor_increased.1 950 1050 (by decide) (by decide)

/-! ## Persistence store: the EEPROM model

`EEPROM.put` / `EEPROM.get` on AVR write and read raw little-endian bytes.
The magic number is a 2-byte `unsigned int`, the total a 4-byte `long`. -/

/-- A byte-addressable store. -/
abbrev Store := Nat → Nat

/-- An EEPROM that was never written: every cell reads `0xFF` (the AVR
erased state). -/
def eepromErased : Store := fun _ => 0xFF

/-- Write one byte. -/
def writeByte (addr v : Nat) (st : Store) : Store :=
  fun a => if a = addr then v else st a

/-- `EEPROM.put` of a 2-byte `unsigned int`, little-endian. -/
def putWord16 (addr n : Nat) (st : Store) : Store :=
  writeByte (addr + 1) (n / 2 ^ 8 % 2 ^ 8) (writeByte addr (n % 2 ^ 8) st)

/-- `EEPROM.get` of a 2-byte `unsigned int`, little-endian. -/
def getWord16 (addr : Nat) (st : Store) : Nat :=
  st addr + 2 ^ 8 * st (addr + 1)

/-- `EEPROM.put` of a 4-byte `long`, little-endian two's complement. -/
def putLong (addr : Nat) (t : Int) (st : Store) : Store :=
  let n := (t % 2 ^ 32).toNat
  writeByte (addr + 3) (n / 2 ^ 24 % 2 ^ 8)
    (writeByte (addr + 2) (n / 2 ^ 16 % 2 ^ 8)
      (writeByte (addr + 1) (n / 2 ^ 8 % 2 ^ 8)
        (writeByte addr (n % 2 ^ 8) st)))

/-- `EEPROM.get` of a 4-byte `long`: reassemble the little-endian bytes
and interpret them as two's complement. -/
def getLong (addr : Nat) (st : Store) : Int :=
  let n : Nat := st addr + 2 ^ 8 * st (addr + 1) + 2 ^ 16 * st (addr + 2) +
    2 ^ 24 * st (addr + 3)
  if n < 2 ^ 31 then (n : Int) else (n : Int) - 2 ^ 32

/-- `saveTotalToEEPROM()` (lines 633-642): magic number at offset 0, total
at offset 2. -/
def saveTotalToEEPROM (totalAmount : Int) (st : Store) : Store :=
  putLong (EEPROM_TOTAL_ADDRESS + 2) totalAmount
    (putWord16 EEPROM_TOTAL_ADDRESS EEPROM_MAGIC_NUMBER st)

/-- `loadTotalFromEEPROM()` (lines 644-664): the stored total when the
magic number matches, else 0. -/
def loadTotalFromEEPROM (st : Store) : Int :=
  if getWord16 EEPROM_TOTAL_ADDRESS st = EEPROM_MAGIC_NUMBER then
    getLong (EEPROM_TOTAL_ADDRESS + 2) st
  else 0

/-- The value of `totalAmount` right after `setup()` (lines 129-187) as a
function of the persisted store: the call `loadTotalFromEEPROM()` at line
175 is commented out, so `setup()` leaves `totalAmount` at its initialiser
`0` whatever the store holds. -/
def setupTotalAmount : Store → Int := fun _ => 0

theorem bytes_reassemble (n : Nat) (h : n < 2 ^ 32) :
    n % 2 ^ 8 + 2 ^ 8 * (n / 2 ^ 8 % 2 ^ 8) + 2 ^ 16 * (n / 2 ^ 16 % 2 ^ 8) +
      2 ^ 24 * (n / 2 ^ 24 % 2 ^ 8) = n := by
  omega

theorem save_load_roundtrip (t : Int) (st : Store) (h0 : -2 ^ 31 ≤ t)
    (h1 : t < 2 ^ 31) : loadTotalFromEEPROM (saveTotalToEEPROM t st) = t := by
  have hmagic :
      getWord16 EEPROM_TOTAL_ADDRESS (saveTotalToEEPROM t st) =
        EEPROM_MAGIC_NUMBER := by
    simp [saveTotalToEEPROM, putLong, putWord16, writeByte, getWord16,
      EEPROM_TOTAL_ADDRESS, EEPROM_MAGIC_NUMBER]
  have hpow : (2 : Int) ^ 32 = 4294967296 := by norm_num
  have hemod0 : 0 ≤ t % 4294967296 := Int.emod_nonneg t (by decide)
  have hemod1 : t % 4294967296 < 4294967296 := Int.emod_lt_of_pos t (by decide)
  obtain ⟨n, hn⟩ : ∃ n : Nat, (t % 2 ^ 32).toNat = n := ⟨_, rfl⟩
  have hn0 : (n : Int) = t % 4294967296 := by
    rw [← hn, hpow]
    exact Int.toNat_of_nonneg hemod0
  have hnb : n < 4294967296 := by omega
  rw [loadTotalFromEEPROM, if_pos hmagic]
  simp only [getLong, saveTotalToEEPROM, putLong, putWord16, writeByte,
    EEPROM_TOTAL_ADDRESS, hn]
  clear hn
  norm_num
  split <;> omega

/-- **C4.** Persistence round-trip: saving any representable total and
loading it back yields the same total, for any prior store contents; the
save writes the little-endian bytes of the `0xAA55` marker at offsets 0
and 1; loading from a never-written (erased) store yields 0, and loading
from any store whose marker does not match `0xAA55` yields 0. -/
theorem c4_persistence_roundtrip :
    (∀ (t : Int) (st : Store), -2 ^ 31 ≤ t → t < 2 ^ 31 →
      loadTotalFromEEPROM (saveTotalToEEPROM t st) = t) ∧
    (∀ (t : Int) (st : Store),
      saveTotalToEEPROM t st 0 = 0x55 ∧ saveTotalToEEPROM t st 1 = 0xAA) ∧
    loadTotalFromEEPROM eepromErased = 0 ∧
    (∀ st : Store, getWord16 EEPROM_TOTAL_ADDRESS st ≠ EEPROM_MAGIC_NUMBER →
      loadTotalFromEEPROM st = 0) := by
  refine ⟨save_load_roundtrip, fun t st => ⟨?_, ?_⟩, ?_, fun st h => ?_⟩
  · simp [saveTotalToEEPROM, putLong, putWord16, writeByte,
      EEPROM_TOTAL_ADDRESS, EEPROM_MAGIC_NUMBER]
  · simp [saveTotalToEEPROM, putLong, putWord16, writeByte,
      EEPROM_TOTAL_ADDRESS, EEPROM_MAGIC_NUMBER]
  · simp [loadTotalFromEEPROM, getWord16, eepromErased,
      EEPROM_TOTAL_ADDRESS, EEPROM_MAGIC_NUMBER]
  · rw [loadTotalFromEEPROM, if_neg h]

/-- Witness for C4: round-tripping the concrete total 1234 through an
erased store returns 1234. -/
theorem c4_persistence_roundtrip_witness :
    loadTotalFromEEPROM (saveTotalToEEPROM 1234 eepromErased) = 1234 :=
  c4_persistence_roundtrip.1 1234 eepromErased (by decide) (by decide)

/-- **C3.** The total does not survive a restart: `setup()` never calls
`loadTotalFromEEPROM()` (the call at line 175 is commented out), so after
`save(1234)` and a power cycle the in-memory total is 0, even though the
persisted record still decodes to 1234.  The claim describes the intended
behaviour; the code contradicts its own comment and debug print. -/
theorem c3_startup_ignores_persisted_total :
    setupTotalAmount (saveTotalToEEPROM 1234 eepromErased) = 0 ∧
    loadTotalFromEEPROM (saveTotalToEEPROM 1234 eepromErased) = 1234 ∧
    (∀ st : Store, setupTotalAmount st = 0) := by
  refine ⟨rfl, ?_, fun st => rfl⟩
  exact save_load_roundtrip 1234 eepromErased (by decide) (by decide)

/-! ## Sensor debouncer: `detectCoin` (lines 224-252)

The state of one sensor channel is its entry in `lastSensorTimes` /
`lastSensorStates`.  `detectCoin` scans the four channels in priority
order; on the first channel whose condition
`coinDetected && !lastSensorStates[i] && (currentTime - lastSensorTimes[i]) > DEBOUNCE_DELAY`
holds it latches the channel and returns its coin value at once; a scanned
channel whose occupancy has cleared is unlatched and the scan goes on. -/

/-- Per-channel debounce state: `lastSensorTimes[i]` and
`lastSensorStates[i]`. -/
structure Channel where
  lastTime : Nat
  lastState : Bool
deriving DecidableEq

/-- The detection condition of lines 229-232: the analog reading is at or
below the 640 threshold, the latched state is unoccupied, and strictly
more than `DEBOUNCE_DELAY` milliseconds elapsed since the channel's last
event. -/
def fireCond (now reading : Nat) (ch : Channel) : Prop :=
  reading ≤ 640 ∧ ch.lastState = false ∧ DEBOUNCE_DELAY < now - ch.lastTime

instance (now reading : Nat) (ch : Channel) : Decidable (fireCond now reading ch) := by
  unfold fireCond
  infer_instance

/-- Lines 246-248: when occupancy has cleared on a latched channel, reset
the latch (no event). -/
def clearChannel (reading : Nat) (ch : Channel) : Channel :=
  if 640 < reading ∧ ch.lastState = true then { ch with lastState := false } else ch

/-- The per-channel coin values paired with the scan order
(`SENSOR_PINS` / `COIN_VALUES`, lines 126-127): penny, nickel, dime,
quarter. -/
def SENSOR_COIN_VALUES : List Nat := [1, 5, 10, 25]

/-- The loop of `detectCoin` over (reading, coin value) pairs and channel
states: fire on the first matching channel and return immediately; clear
scanned non-matching channels whose occupancy dropped. -/
def detectAux (now : Nat) : List (Nat × Nat) → List Channel → Nat × List Channel
  | [], chs => (0, chs)
  | _ :: _, [] => (0, [])
  | (reading, v) :: rest, ch :: chsRest =>
      if fireCond now reading ch then
        (v, { lastTime := now, lastState := true } :: chsRest)
      else
        let p := detectAux now rest chsRest
        (p.1, clearChannel reading ch :: p.2)

/-- `detectCoin()`: scan the four channels against their readings; return
the detected coin value (0 for none) and the updated channel states. -/
def detectCoin (now : Nat) (readings : List Nat) (chs : List Channel) :
    Nat × List Channel :=
  detectAux now (readings.zip SENSOR_COIN_VALUES) chs

/-- The power-on state: `lastSensorTimes = {0,0,0,0}` and
`lastSensorStates = {false,false,false,false}` (lines 63-64). -/
def initialChannels : List Channel := List.replicate 4 ⟨0, false⟩

/-- Index of the first channel satisfying the detection condition; this is
the specification-side description of which channel `detectCoin` reports. -/
def specFireIndex (now : Nat) : List (Nat × Nat) → List Channel → Option Nat
  | [], _ => none
  | _ :: _, [] => none
  | (reading, _) :: rest, ch :: chsRest =>
      if fireCond now reading ch then some 0
      else (specFireIndex now rest chsRest).map (· + 1)

theorem detectAux_spec (now : Nat) : ∀ (ps : List (Nat × Nat)) (chs : List Channel),
    (specFireIndex now ps chs = none →
      detectAux now ps chs =
        (0, List.zipWith (fun p ch => clearChannel p.1 ch) ps chs ++
          chs.drop ps.length)) ∧
    (∀ i, specFireIndex now ps chs = some i →
      i < ps.length ∧ i < chs.length ∧
      fireCond now (ps.getD i (0, 0)).1 (chs.getD i ⟨0, false⟩) ∧
      (∀ j, j < i → ¬ fireCond now (ps.getD j (0, 0)).1 (chs.getD j ⟨0, false⟩)) ∧
      detectAux now ps chs =
        ((ps.getD i (0, 0)).2,
          List.zipWith (fun p ch => clearChannel p.1 ch) (ps.take i) (chs.take i) ++
            ⟨now, true⟩ :: chs.drop (i + 1))) := by
  intro ps
  induction ps with
  | nil =>
      intro chs
      refine ⟨fun _ => by simp [detectAux], fun i hi => ?_⟩
      simp [specFireIndex] at hi
  | cons p rest ih =>
      intro chs
      cases chs with
      | nil =>
          obtain ⟨reading, v⟩ := p
          refine ⟨fun _ => by simp [detectAux], fun i hi => ?_⟩
          simp [specFireIndex] at hi
      | cons ch chsRest =>
          obtain ⟨reading, v⟩ := p
          by_cases hfire : fireCond now reading ch
          · refine ⟨fun hnone => ?_, fun i hi => ?_⟩
            · simp [specFireIndex, hfire] at hnone
            · have hi0 : i = 0 := by
                simp [specFireIndex, hfire] at hi
                omega
              subst hi0
              refine ⟨by simp, by simp, by simpa using hfire, by omega, ?_⟩
              simp [detectAux, hfire]
          · have hspec : specFireIndex now ((reading, v) :: rest) (ch :: chsRest) =
                (specFireIndex now rest chsRest).map (· + 1) := by
              simp [specFireIndex, hfire]
            refine ⟨fun hnone => ?_, fun i hi => ?_⟩
            · rw [hspec] at hnone
              have hnone2 : specFireIndex now rest chsRest = none := by
                cases hrec : specFireIndex now rest chsRest with
                | none => rfl
                | some j => rw [hrec] at hnone; simp at hnone
              have := (ih chsRest).1 hnone2
              simp [detectAux, hfire, this]
            · rw [hspec] at hi
              obtain ⟨j, hj, rfl⟩ : ∃ j, specFireIndex now rest chsRest = some j ∧
                  i = j + 1 := by
                cases hrec : specFireIndex now rest chsRest with
                | none => rw [hrec] at hi; simp at hi
                | some j =>
                    rw [hrec] at hi
                    simp at hi
                    exact ⟨j, rfl, hi.symm⟩
              obtain ⟨hlen1, hlen2, hcond, hbefore, heq⟩ := (ih chsRest).2 j hj
              refine ⟨by simpa using hlen1, by simpa using hlen2, by simpa using hcond,
                ?_, ?_⟩
              · intro j2 hj2
                cases j2 with
                | zero => simpa using hfire
                | succ j3 =>
                    have : j3 < j := by omega
                    simpa using hbefore j3 this
              · simp only [detectAux, if_neg hfire, heq, List.take_succ_cons,
                  List.zipWith_cons_cons, List.drop_succ_cons, List.getD_cons_succ,
                  List.cons_append]

/-- **C5 counterexample.** At 10 ms after power-on a penny reading of 600
is at or below the 640 threshold, the channel latch is unoccupied, and
exactly the 10 ms debounce interval has elapsed since the channel's last
event — the claim's firing condition ("at least the 10 ms debounce
interval elapsed") is satisfied — yet `detectCoin` reports no event and
leaves every channel unchanged: the code demands strictly more than
`DEBOUNCE_DELAY` milliseconds. -/
theorem c5_debounce_boundary_counterexample :
    600 ≤ 640 ∧ (initialChannels.getD 0 ⟨0, false⟩).lastState = false ∧
    DEBOUNCE_DELAY ≤ 10 - (initialChannels.getD 0 ⟨0, false⟩).lastTime ∧
    detectCoin 10 [600, 1023, 1023, 1023] initialChannels =
      (0, initialChannels) := by
  decide

/-- **C5 (amended).** `detectCoin` reports a denomination event only on a
rising occupancy edge (reading at or below 640 while the latch was
unoccupied) with strictly more than the 10 ms debounce interval elapsed
since that channel's last event; the first matching channel in priority
order wins and at most one coin is reported per call, latching the
channel with the current time; a channel whose last event is at most one
debounce interval in the past cannot fire, a latched channel cannot fire
again until its occupancy clears, and clearing resets the latch with no
event and no timestamp change. -/
theorem c5_detect_edge_debounce_priority :
    (∀ (now : Nat) (rs : List Nat) (chs : List Channel),
      specFireIndex now (rs.zip SENSOR_COIN_VALUES) chs = none →
        detectCoin now rs chs =
          (0, List.zipWith (fun p ch => clearChannel p.1 ch)
            (rs.zip SENSOR_COIN_VALUES) chs ++
              chs.drop (rs.zip SENSOR_COIN_VALUES).length)) ∧
    (∀ (now : Nat) (rs : List Nat) (chs : List Channel) (i : Nat),
      specFireIndex now (rs.zip SENSOR_COIN_VALUES) chs = some i →
        i < chs.length ∧
        fireCond now ((rs.zip SENSOR_COIN_VALUES).getD i (0, 0)).1
          (chs.getD i ⟨0, false⟩) ∧
        (∀ j, j < i →
          ¬ fireCond now ((rs.zip SENSOR_COIN_VALUES).getD j (0, 0)).1
            (chs.getD j ⟨0, false⟩)) ∧
        detectCoin now rs chs =
          (((rs.zip SENSOR_COIN_VALUES).getD i (0, 0)).2,
            List.zipWith (fun p ch => clearChannel p.1 ch)
              ((rs.zip SENSOR_COIN_VALUES).take i) (chs.take i) ++
              ⟨now, true⟩ :: chs.drop (i + 1))) ∧
    (∀ (ch : Channel) (now reading : Nat), ch.lastState = true →
      ¬ fireCond now reading ch) ∧
    (∀ (lastEvent now reading : Nat) (b : Bool),
      now - lastEvent ≤ DEBOUNCE_DELAY →
        ¬ fireCond now reading ⟨lastEvent, b⟩) ∧
    (∀ (reading : Nat) (ch : Channel), 640 < reading →
      (clearChannel reading ch).lastState = false ∧
      (clearChannel reading ch).lastTime = ch.lastTime) := by
  refine ⟨?_, ?_, ?_, ?_, ?_⟩
  · intro now rs chs hnone
    exact (detectAux_spec now (rs.zip SENSOR_COIN_VALUES) chs).1 hnone
  · intro now rs chs i hi
    obtain ⟨_, h2, h3, h4, h5⟩ :=
      (detectAux_spec now (rs.zip SENSOR_COIN_VALUES) chs).2 i hi
    exact ⟨h2, h3, h4, h5⟩
  · intro ch now reading hlatched
    simp [fireCond, hlatched]
  · intro lastEvent now reading b hle
    simp only [DEBOUNCE_DELAY] at hle
    simp only [fireCond, DEBOUNCE_DELAY, not_and]
    intro _ _
    omega
  · intro reading ch hclear
    by_cases hb : ch.lastState = true
    · simp [clearChannel, hclear, hb]
    · simp only [Bool.not_eq_true] at hb
      simp [clearChannel, hclear, hb]

/-- Witness for C5: at 20 ms after power-on a penny reading of 600 fires
channel 0 and `detectCoin` reports coin value 1. -/
theorem c5_detect_edge_debounce_priority_witness :
    (detectCoin 20 [600, 1023, 1023, 1023] initialChannels).1 = 1 := by
  have h := c5_detect_edge_debounce_priority.2.1 20 [600, 1023, 1023, 1023]
    initialChannels 0 (by decide)
  rw [h.2.2.2]
  decide

/-! ## Matrix renderer: `drawMoney` (lines 279-311)

`drawMoney` splits the amount into dollars and cents, pads single-digit
cents, truncates the dollar string to the digits that fit, and lays the
glyphs out right-aligned.  The digit-string computation is embedded here
over the glyph alphabet `MoneyChar`; the matrix width is a parameter
(`MATRIX_WIDTH` in the source) so that the narrow-display policy of the
specification is expressible.  Amounts are the non-negative totals of
every reachable state. -/

/-- Decimal digits of `n`, least-significant first, with explicit fuel
(`String(long)` of the source). -/
def digitsRevAux : Nat → Nat → List Nat
  | 0, _ => []
  | fuel + 1, n => if n = 0 then [] else n % 10 :: digitsRevAux fuel (n / 10)

/-- Decimal representation of `n`, most-significant digit first;
`String(0)` is `"0"`. -/
def decimalDigits (n : Nat) : List Nat :=
  if n = 0 then [0] else (digitsRevAux n n).reverse

/-- The numeric value of a most-significant-first digit string. -/
def decodeMSD (l : List Nat) : Nat :=
  l.foldl (fun a d => 10 * a + d) 0

/-- A rendered glyph: one of the ten digit glyphs or the decimal-point
glyph. -/
inductive MoneyChar where
  | digit : Nat → MoneyChar
  | separator : MoneyChar
deriving DecidableEq

/-- `maxDollarDigits` (line 287): `(MATRIX_WIDTH - 10) / 4`. -/
def maxDollarDigits (width : Nat) : Nat := (width - 10) / 4

/-- The dollar digit string `String(amount / 100)` (lines 280-283). -/
def dollarDigits (amount : Nat) : List Nat := decimalDigits (amount / 100)

/-- Lines 288-290: keep only the least-significant dollar digits that fit. -/
def truncatedDollarDigits (width amount : Nat) : List Nat :=
  let ds := dollarDigits amount
  if ds.length > maxDollarDigits width then
    ds.drop (ds.length - maxDollarDigits width)
  else ds

/-- The cent digit string (lines 281-284): `amount % 100`, padded to two
digits with a leading zero. -/
def centDigits (amount : Nat) : List Nat :=
  let cents := amount % 100
  if cents < 10 then 0 :: decimalDigits cents else decimalDigits cents

/-- The glyph sequence drawn by `drawMoney` (lines 295-310): truncated
dollar digits, decimal point, cent digits. -/
def drawMoneyChars (width amount : Nat) : List MoneyChar :=
  (truncatedDollarDigits width amount).map MoneyChar.digit ++
    MoneyChar.separator :: (centDigits amount).map MoneyChar.digit

/-- `totalWidth` (line 292): 4 columns per dollar digit, 2 for the
decimal point with spacing, 8 for the two cent digits. -/
def drawMoneyTotalWidth (width amount : Nat) : Nat :=
  (truncatedDollarDigits width amount).length * 4 + 2 + 8

/-- `startX` (line 293): the drawing is right-aligned against the matrix
width (an `int` in the source, hence `Int` here). -/
def drawMoneyStartX (width amount : Nat) : Int :=
  (width : Int) - (drawMoneyTotalWidth width amount : Int)

theorem digitsRevAux_zero (fuel : Nat) : digitsRevAux fuel 0 = [] := by
  cases fuel <;> simp [digitsRevAux]

theorem foldl_decode_shift (l : List Nat) :
    ∀ a : Nat, l.foldl (fun a d => 10 * a + d) a = a * 10 ^ l.length + decodeMSD l := by
  induction l with
  | nil => intro a; simp [decodeMSD]
  | cons d tl ih =>
      intro a
      have hd : decodeMSD (d :: tl) = d * 10 ^ tl.length + decodeMSD tl := by
        simp only [decodeMSD, List.foldl_cons]
        rw [show (10 * 0 + d) = d by omega]
        exact ih d
      simp only [List.foldl_cons, List.length_cons, hd]
      rw [ih (10 * a + d)]
      ring

theorem decodeMSD_append (l1 l2 : List Nat) :
    decodeMSD (l1 ++ l2) = decodeMSD l1 * 10 ^ l2.length + decodeMSD l2 := by
  simp only [decodeMSD, List.foldl_append]
  exact foldl_decode_shift l2 (decodeMSD l1)

theorem decodeMSD_lt (l : List Nat) (h : ∀ d ∈ l, d < 10) :
    decodeMSD l < 10 ^ l.length := by
  induction l with
  | nil => simp [decodeMSD]
  | cons d tl ih =>
      have hd : decodeMSD (d :: tl) = d * 10 ^ tl.length + decodeMSD tl := by
        simp only [decodeMSD, List.foldl_cons]
        rw [show (10 * 0 + d) = d by omega]
        exact foldl_decode_shift tl d
      have htl : decodeMSD tl < 10 ^ tl.length :=
        ih fun d2 hd2 => h d2 (List.mem_cons_of_mem _ hd2)
      have hd9 : d ≤ 9 := by
        have := h d (List.mem_cons_self _ _)
        omega
      have hmul : d * 10 ^ tl.length ≤ 9 * 10 ^ tl.length :=
        Nat.mul_le_mul_right _ hd9
      simp only [hd, List.length_cons, pow_succ]
      omega

theorem digitsRevAux_sound (fuel : Nat) :
    ∀ n : Nat, n ≤ fuel →
      decodeMSD (digitsRevAux fuel n).reverse = n ∧
        ∀ d ∈ digitsRevAux fuel n, d < 10 := by
  induction fuel with
  | zero =>
      intro n hn
      have : n = 0 := by omega
      subst this
      simp [digitsRevAux, decodeMSD]
  | succ fuel ih =>
      intro n hn
      by_cases h0 : n = 0
      · subst h0
        simp [digitsRevAux, decodeMSD]
      · have hfuel : n / 10 ≤ fuel := by
          have hlt : n / 10 < n := Nat.div_lt_self (Nat.pos_of_ne_zero h0) (by omega)
          omega
        obtain ⟨hdec, hdig⟩ := ih (n / 10) hfuel
        constructor
        · simp only [digitsRevAux, if_neg h0, List.reverse_cons]
          rw [decodeMSD_append, hdec]
          have : decodeMSD [n % 10] = n % 10 := by simp [decodeMSD]
          rw [this]
          simp only [List.length_singleton, pow_one]
          omega
        · intro d hd
          simp only [digitsRevAux, if_neg h0, List.mem_cons] at hd
          rcases hd with h | h
          · omega
          · exact hdig d h

theorem decimalDigits_sound (n : Nat) :
    decodeMSD (decimalDigits n) = n ∧ (∀ d ∈ decimalDigits n, d < 10) ∧
      decimalDigits n ≠ [] := by
  by_cases h0 : n = 0
  · subst h0
    refine ⟨by simp [decimalDigits, decodeMSD], ?_, by simp [decimalDigits]⟩
    simp [decimalDigits]
  · obtain ⟨hdec, hdig⟩ := digitsRevAux_sound n n le_rfl
    refine ⟨by simpa [decimalDigits, h0] using hdec, ?_, ?_⟩
    · intro d hd
      simp only [decimalDigits, if_neg h0, List.mem_reverse] at hd
      exact hdig d hd
    · obtain ⟨m, rfl⟩ : ∃ m, n = m + 1 := ⟨n - 1, by omega⟩
      simp [decimalDigits, digitsRevAux]

theorem digitsRevAux_fuel_irrel :
    ∀ n f1 f2 : Nat, n ≤ f1 → n ≤ f2 → digitsRevAux f1 n = digitsRevAux f2 n := by
  intro n
  induction n using Nat.strong_induction_on with
  | _ n ih =>
      intro f1 f2 h1 h2
      by_cases h0 : n = 0
      · subst h0
        rw [digitsRevAux_zero, digitsRevAux_zero]
      · obtain ⟨g1, rfl⟩ : ∃ g, f1 = g + 1 := ⟨f1 - 1, by omega⟩
        obtain ⟨g2, rfl⟩ : ∃ g, f2 = g + 1 := ⟨f2 - 1, by omega⟩
        have hlt : n / 10 < n := Nat.div_lt_self (Nat.pos_of_ne_zero h0) (by omega)
        simp only [digitsRevAux, if_neg h0]
        rw [ih (n / 10) hlt g1 g2 (by omega) (by omega)]

theorem decimalDigits_single (c : Nat) (h : c < 10) : decimalDigits c = [c] := by
  by_cases h0 : c = 0
  · subst h0; rfl
  · obtain ⟨m, rfl⟩ : ∃ m, c = m + 1 := ⟨c - 1, by omega⟩
    simp only [decimalDigits, if_neg h0]
    rw [show digitsRevAux (m + 1) (m + 1) =
        (m + 1) % 10 :: digitsRevAux m ((m + 1) / 10) by
      simp [digitsRevAux]]
    rw [show (m + 1) / 10 = 0 by omega, digitsRevAux_zero]
    simp only [List.reverse_cons, List.reverse_nil, List.nil_append]
    rw [Nat.mod_eq_of_lt h]

theorem decimalDigits_double (c : Nat) (h1 : 10 ≤ c) (h2 : c < 100) :
    decimalDigits c = [c / 10, c % 10] := by
  have h0 : c ≠ 0 := by omega
  obtain ⟨m, rfl⟩ : ∃ m, c = m + 1 := ⟨c - 1, by omega⟩
  simp only [decimalDigits, if_neg h0]
  rw [show digitsRevAux (m + 1) (m + 1) =
      (m + 1) % 10 :: digitsRevAux m ((m + 1) / 10) by
    simp [digitsRevAux, h0]]
  have hq1 : 1 ≤ (m + 1) / 10 := by omega
  have hq9 : (m + 1) / 10 < 10 := by omega
  rw [digitsRevAux_fuel_irrel ((m + 1) / 10) m ((m + 1) / 10) (by omega) le_rfl]
  obtain ⟨k, hk⟩ : ∃ k, (m + 1) / 10 = k + 1 := ⟨(m + 1) / 10 - 1, by omega⟩
  rw [hk]
  rw [show digitsRevAux (k + 1) (k + 1) =
      (k + 1) % 10 :: digitsRevAux k ((k + 1) / 10) by
    simp [digitsRevAux]]
  rw [show (k + 1) / 10 = 0 by omega, digitsRevAux_zero]
  simp only [List.reverse_cons, List.reverse_nil, List.nil_append,
    List.cons_append]
  rw [show (k + 1) % 10 = k + 1 by omega, ← hk]

theorem truncation_keeps_least_significant (width amount : Nat) :
    (truncatedDollarDigits width amount).length =
      min (dollarDigits amount).length (maxDollarDigits width) ∧
    decodeMSD (truncatedDollarDigits width amount) =
      (amount / 100) % 10 ^ (truncatedDollarDigits width amount).length := by
  have hdec : decodeMSD (dollarDigits amount) = amount / 100 :=
    (decimalDigits_sound _).1
  have hdig : ∀ d ∈ dollarDigits amount, d < 10 :=
    (decimalDigits_sound _).2.1
  simp only [truncatedDollarDigits]
  split
  case isTrue h =>
    refine ⟨by rw [List.length_drop]; omega, ?_⟩
    obtain ⟨dtake, ddrop, ht, hd2⟩ :
        ∃ t d, t = List.take ((dollarDigits amount).length -
            maxDollarDigits width) (dollarDigits amount) ∧
          d = List.drop ((dollarDigits amount).length -
            maxDollarDigits width) (dollarDigits amount) := ⟨_, _, rfl, rfl⟩
    rw [← hd2]
    have hsplit : dollarDigits amount = dtake ++ ddrop := by
      rw [ht, hd2]
      exact (List.take_append_drop _ _).symm
    have hlt : decodeMSD ddrop < 10 ^ ddrop.length := by
      refine decodeMSD_lt _ (fun d hd => hdig d ?_)
      rw [hd2] at hd
      exact List.mem_of_mem_drop hd
    rw [← hdec, hsplit, decodeMSD_append,
      Nat.add_comm (decodeMSD dtake * 10 ^ ddrop.length) (decodeMSD ddrop),
      Nat.add_mul_mod_self_right, Nat.mod_eq_of_lt hlt]
  case isFalse h =>
    refine ⟨by omega, ?_⟩
    have hlt : decodeMSD (dollarDigits amount) <
        10 ^ (dollarDigits amount).length := decodeMSD_lt _ hdig
    rw [hdec] at hlt
    rw [hdec, Nat.mod_eq_of_lt hlt]

theorem centDigits_sound (amount : Nat) :
    (centDigits amount).length = 2 ∧
    decodeMSD (centDigits amount) = amount % 100 ∧
    (amount % 100 < 10 → centDigits amount = [0, amount % 100]) := by
  have hc : amount % 100 < 100 := Nat.mod_lt _ (by omega)
  by_cases h : amount % 100 < 10
  · have hpad : centDigits amount = [0, amount % 100] := by
      simp only [centDigits, if_pos h, decimalDigits_single _ h]
    refine ⟨by rw [hpad]; rfl, by rw [hpad]; simp [decodeMSD], fun _ => hpad⟩
  · have hdd : centDigits amount = [amount % 100 / 10, amount % 100 % 10] := by
      simp only [centDigits, if_neg h,
        decimalDigits_double _ (by omega) hc]
    refine ⟨by rw [hdd]; rfl, ?_, fun hcontra => by omega⟩
    rw [hdd]
    simp only [decodeMSD, List.foldl_cons, List.foldl_nil]
    omega

theorem startX_alignment (width amount : Nat) (hw : 14 ≤ width) :
    0 ≤ drawMoneyStartX width amount ∧
    drawMoneyStartX width amount + (drawMoneyTotalWidth width amount : Int) =
      (width : Int) := by
  have hlen := (truncation_keeps_least_significant width amount).1
  have hmaxle : maxDollarDigits width * 4 ≤ width - 10 := by
    simp only [maxDollarDigits]
    exact Nat.div_mul_le_self _ _
  have hL : (truncatedDollarDigits width amount).length ≤
      maxDollarDigits width := by omega
  simp only [drawMoneyStartX, drawMoneyTotalWidth]
  omega

/-- **C6.** Rendering splits the total into dollars (`total / 100`) and
cents (`total % 100`), pads single-digit cents with a leading zero, and
truncates the dollar digit string to the least-significant digits that
fit the width budget `(width - 10) / 4`: `Render(0)` yields the glyphs of
"0.00", `Render(12345)` yields "123.45" on the 32-wide matrix, and on an
18-wide matrix (2 dollar digits of budget) `Render(12345)` yields
"23.45"; in general the kept dollar digits decode to
`dollars mod 10 ^ kept`, the cent field is always exactly two digits, and
the right-aligned layout always starts at a non-negative column — a
defined truncation policy, not an overflow fault. -/
theorem c6_drawMoney_format_truncation :
    drawMoneyChars 32 0 = [MoneyChar.digit 0, MoneyChar.separator,
      MoneyChar.digit 0, MoneyChar.digit 0] ∧
    drawMoneyChars 32 12345 = [MoneyChar.digit 1, MoneyChar.digit 2,
      MoneyChar.digit 3, MoneyChar.separator, MoneyChar.digit 4,
      MoneyChar.digit 5] ∧
    drawMoneyChars 18 12345 = [MoneyChar.digit 2, MoneyChar.digit 3,
      MoneyChar.separator, MoneyChar.digit 4, MoneyChar.digit 5] ∧
    (∀ width amount : Nat,
      (truncatedDollarDigits width amount).length =
        min (dollarDigits amount).length (maxDollarDigits width) ∧
      decodeMSD (truncatedDollarDigits width amount) =
        (amount / 100) % 10 ^ (truncatedDollarDigits width amount).length) ∧
    (∀ amount : Nat,
      (centDigits amount).length = 2 ∧
      decodeMSD (centDigits amount) = amount % 100 ∧
      (amount % 100 < 10 → centDigits amount = [0, amount % 100])) ∧
    (∀ width amount : Nat, 14 ≤ width →
      0 ≤ drawMoneyStartX width amount ∧
      drawMoneyStartX width amount + (drawMoneyTotalWidth width amount : Int) =
        (width : Int)) :=
  ⟨by decide, by decide, by decide, truncation_keeps_least_significant,
    centDigits_sound, startX_alignment⟩

/-- Witness for C6 on the narrow 18-wide matrix at amount 12345: the
layout still fits (non-negative start column). -/
theorem c6_drawMoney_format_truncation_witness :
    0 ≤ drawMoneyStartX 18 12345 :=
  (c6_drawMoney_format_truncation.2.2.2.2.2 18 12345 (by decide)).1

/-! ## Pixel addressing: `setMatrixPixel` (lines 336-350)

Logical coordinates are flipped on both axes, then mapped through the
serpentine scan of the physical strip.  The frame is the NeoPixel buffer,
a list of `LED_COUNT` colour words. -/

/-- The NeoPixel frame buffer. -/
abbrev Frame := List Nat

/-- `strip.clear()`: every pixel off. -/
def clearFrame : Frame := List.replicate LED_COUNT 0

/-- `strip.fill(c)`: every pixel set to `c`. -/
def fillFrame (color : Nat) : Frame := List.replicate LED_COUNT color

/-- `strip.setPixelColor(idx, c)` (out-of-range indices are ignored by
`List.set`, as by the strip driver). -/
def setPixelColor (idx color : Nat) (f : Frame) : Frame := f.set idx color

/-- The physical strip index computed at lines 339-347: flip both axes,
then serpentine — even physical rows run one way, odd rows the other. -/
def matrixPixelIndex (x y : Int) : Int :=
  let flippedY := (MATRIX_HEIGHT : Int) - 1 - y
  let flippedX := (MATRIX_WIDTH : Int) - 1 - x
  if flippedY % 2 = 0 then flippedY * (MATRIX_WIDTH : Int) + flippedX
  else flippedY * (MATRIX_WIDTH : Int) + ((MATRIX_WIDTH : Int) - 1 - flippedX)

/-- `setMatrixPixel(x, y, color)`: out-of-bounds coordinates are dropped
(line 337), in-bounds ones write through the serpentine index. -/
def setMatrixPixel (x y : Int) (color : Nat) (f : Frame) : Frame :=
  if x < 0 ∨ (MATRIX_WIDTH : Int) ≤ x ∨ y < 0 ∨ (MATRIX_HEIGHT : Int) ≤ y then f
  else setPixelColor (matrixPixelIndex x y).toNat color f

/-- The physical row a strip index belongs to. -/
def physicalRow (idx : Nat) : Nat := idx / MATRIX_WIDTH

/-- **C7 counterexample.** Logical (0,0) does map to physical index 159
and logical (31,4) to physical index 0, but these opposite corners lie in
physical rows 4 and 0 — both even — so the two corner checks do not cover
one even and one odd physical row as the claim states. -/
theorem c7_corner_parity_counterexample :
    matrixPixelIndex 0 0 = 159 ∧ matrixPixelIndex 31 4 = 0 ∧
    physicalRow (matrixPixelIndex 0 0).toNat = 4 ∧
    physicalRow (matrixPixelIndex 31 4).toNat = 0 ∧
    ¬ (physicalRow (matrixPixelIndex 0 0).toNat % 2 ≠
        physicalRow (matrixPixelIndex 31 4).toNat % 2) := by
  decide

/-- **C7 (amended).** The mapping flips logical (x, y) on both axes and
applies the serpentine rule — even flipped rows map to
`fy * width + fx`, odd flipped rows to `fy * width + (width - 1 - fx)` —
so logical (0,0) maps to physical index 159 and logical (31,4) to
physical index 0, opposite corners, both in even physical rows; the
odd-row branch is exercised by logical (0,1) ↦ 96 and (31,3) ↦ 63; every
in-bounds index lies below 160, and out-of-bounds logical coordinates are
silently dropped with no write to the frame. -/
theorem c7_serpentine_mapping :
    (∀ x y : Int, 0 ≤ x → x < 32 → 0 ≤ y → y < 5 →
      ((4 - y) % 2 = 0 →
        matrixPixelIndex x y = (4 - y) * 32 + (31 - x)) ∧
      ((4 - y) % 2 = 1 →
        matrixPixelIndex x y = (4 - y) * 32 + x)) ∧
    (∀ x y : Int, 0 ≤ x → x < 32 → 0 ≤ y → y < 5 →
      0 ≤ matrixPixelIndex x y ∧ matrixPixelIndex x y < 160) ∧
    matrixPixelIndex 0 0 = 159 ∧ matrixPixelIndex 31 4 = 0 ∧
    matrixPixelIndex 0 1 = 96 ∧ matrixPixelIndex 31 3 = 63 ∧
    physicalRow (matrixPixelIndex 0 1).toNat = 3 ∧
    physicalRow (matrixPixelIndex 31 3).toNat = 1 ∧
    (∀ (x y : Int) (color : Nat) (f : Frame),
      x < 0 ∨ 32 ≤ x ∨ y < 0 ∨ 5 ≤ y → setMatrixPixel x y color f = f) ∧
    (∀ (x y : Int) (color : Nat) (f : Frame),
      0 ≤ x → x < 32 → 0 ≤ y → y < 5 →
        setMatrixPixel x y color f =
          setPixelColor (matrixPixelIndex x y).toNat color f) := by
  have hform : ∀ x y : Int,
      matrixPixelIndex x y =
        if (4 - y) % 2 = 0 then (4 - y) * 32 + (31 - x)
        else (4 - y) * 32 + x := by
    intro x y
    simp only [matrixPixelIndex, MATRIX_WIDTH, MATRIX_HEIGHT, Nat.cast_ofNat]
    rw [show (5 : Int) - 1 - y = 4 - y by ring]
    split <;> ring_nf
  refine ⟨?_, ?_, by decide, by decide, by decide, by decide, by decide,
    by decide, ?_, ?_⟩
  · intro x y _ _ _ _
    constructor
    · intro hpar
      rw [hform, if_pos hpar]
    · intro hpar
      rw [hform, if_neg (by omega)]
  · intro x y hx0 hx1 hy0 hy1
    rw [hform]
    have := Int.emod_two_eq_zero_or_one (4 - y)
    split <;> omega
  · intro x y color f h
    simp only [setMatrixPixel, MATRIX_WIDTH, MATRIX_HEIGHT, Nat.cast_ofNat]
    rw [if_pos (by omega)]
  · intro x y color f hx0 hx1 hy0 hy1
    simp only [setMatrixPixel, MATRIX_WIDTH, MATRIX_HEIGHT, Nat.cast_ofNat]
    rw [if_neg (by omega)]

/-- Witness for C7: the even-row branch at logical (0,0) gives index 159,
and an out-of-bounds write at logical (32,0) leaves the cleared frame
unchanged. -/
theorem c7_serpentine_mapping_witness :
    matrixPixelIndex 0 0 = (4 - 0) * 32 + (31 - 0) ∧
    setMatrixPixel 32 0 7 clearFrame = clearFrame := by
  constructor
  · exact ((c7_serpentine_mapping.1 0 0 (by decide) (by decide) (by decide)
      (by decide)).1 (by decide))
  · exact c7_serpentine_mapping.2.2.2.2.2.2.2.2.1 32 0 7 clearFrame
      (by right; left; decide)

/-! ## Motor sequencer: `startMotor`, `stopMotor`, `updateMotorPulse`
(lines 517-558 and 676-758)

The sequencer state collects the motor globals (lines 79-97) together
with the two H-bridge direction pins; `eepromSaved` records that
`stopMotor` invoked `saveTotalToEEPROM`.  `checkMotorButton` (line 510)
calls `updateMotorPulse` only while `motorRunning`, which `motorTick`
mirrors. -/

def PULSE_ON_TIME : Nat := 100

def PULSE_OFF_TIME : Nat := 100

def FORWARD_PULSES : Nat := 4

def BACKWARD_PULSES : Nat := 1

def TOTAL_SEQUENCES : Nat := 2

/-- The motor globals plus the H-bridge pins. -/
structure MotorState where
  motorRunning : Bool
  motorDirection : Bool
  pulseState : Bool
  lastPulseTime : Nat
  pulseCount : Nat
  sequenceCount : Nat
  pulsesInCurrentSequence : Nat
  forwardPin : Bool
  backwardPin : Bool
  eepromSaved : Bool
deriving DecidableEq

/-- `startMotor()` (lines 517-545): counters zeroed, forward direction,
On phase entered at once with the forward pin driven. -/
def startMotor (now : Nat) : MotorState :=
  { motorRunning := true, motorDirection := true, pulseState := true,
    lastPulseTime := now, pulseCount := 0, sequenceCount := 0,
    pulsesInCurrentSequence := 0, forwardPin := true, backwardPin := false,
    eepromSaved := false }

/-- `stopMotor()` (lines 547-558): both pins cut, counters cleared, total
persisted. -/
def stopMotor (s : MotorState) : MotorState :=
  { s with motorRunning := false, forwardPin := false, backwardPin := false,
           pulseState := false, pulseCount := 0, sequenceCount := 0,
           pulsesInCurrentSequence := 0, eepromSaved := true }

/-- `updateMotorPulse(currentTime)` (lines 676-758). -/
def updateMotorPulse (s : MotorState) (currentTime : Nat) : MotorState :=
  if s.pulseState then
    if currentTime - s.lastPulseTime ≥ PULSE_ON_TIME then
      { s with forwardPin := false, backwardPin := false,
               pulseState := false, lastPulseTime := currentTime }
    else s
  else
    if currentTime - s.lastPulseTime ≥ PULSE_OFF_TIME then
      let pc := s.pulseCount + 1
      let pis := s.pulsesInCurrentSequence + 1
      let dir := if pis ≥ FORWARD_PULSES ∧ s.motorDirection = true then false
        else s.motorDirection
      if pis ≥ FORWARD_PULSES + BACKWARD_PULSES then
        if s.sequenceCount + 1 ≥ TOTAL_SEQUENCES then
          stopMotor { s with pulseCount := pc,
                              sequenceCount := s.sequenceCount + 1,
                              pulsesInCurrentSequence := 0,
                              motorDirection := true }
        else
          { s with pulseCount := pc, sequenceCount := s.sequenceCount + 1,
                   pulsesInCurrentSequence := 0, motorDirection := true,
                   forwardPin := true, backwardPin := false,
                   pulseState := true, lastPulseTime := currentTime }
      else
        { s with pulseCount := pc, pulsesInCurrentSequence := pis,
                 motorDirection := dir, forwardPin := dir, backwardPin := !dir,
                 pulseState := true, lastPulseTime := currentTime }
    else s

/-- One scheduler tick of the motor machinery: `checkMotorButton` calls
`updateMotorPulse` only while the motor runs (lines 510-512). -/
def motorTick (s : MotorState) (currentTime : Nat) : MotorState :=
  if s.motorRunning then updateMotorPulse s currentTime else s

/-- The sequencer state with the phase-origin timestamp erased; all
branch decisions of `updateMotorPulse` depend only on these fields. -/
structure MotorAbs where
  motorRunning : Bool
  motorDirection : Bool
  pulseState : Bool
  pulseCount : Nat
  sequenceCount : Nat
  pulsesInCurrentSequence : Nat
  forwardPin : Bool
  backwardPin : Bool
  eepromSaved : Bool
deriving DecidableEq

/-- Forget the timestamp. -/
def MotorState.abst (s : MotorState) : MotorAbs :=
  { motorRunning := s.motorRunning, motorDirection := s.motorDirection,
    pulseState := s.pulseState, pulseCount := s.pulseCount,
    sequenceCount := s.sequenceCount,
    pulsesInCurrentSequence := s.pulsesInCurrentSequence,
    forwardPin := s.forwardPin, backwardPin := s.backwardPin,
    eepromSaved := s.eepromSaved }

/-- Re-attach a timestamp. -/
def MotorAbs.conc (a : MotorAbs) (t : Nat) : MotorState :=
  { motorRunning := a.motorRunning, motorDirection := a.motorDirection,
    pulseState := a.pulseState, lastPulseTime := t,
    pulseCount := a.pulseCount, sequenceCount := a.sequenceCount,
    pulsesInCurrentSequence := a.pulsesInCurrentSequence,
    forwardPin := a.forwardPin, backwardPin := a.backwardPin,
    eepromSaved := a.eepromSaved }

/-- The effect of one effective tick (one with the 100 ms phase duration
elapsed) on the time-erased state, computed through `motorTick` itself. -/
def astep (a : MotorAbs) : MotorAbs :=
  (motorTick (a.conc 0) PULSE_ON_TIME).abst

/-- Run the motor over a list of inter-tick gaps: each tick happens one
full phase duration plus an arbitrary extra delay after the last phase
origin, so every tick is effective.  Returns the final state and the
directions of the Off-to-On transitions (the motor pulses after the
start pulse). -/
def motorRunG (s : MotorState) : List Nat → MotorState × List Bool
  | [] => (s, [])
  | g :: gs =>
      let s2 := motorTick s (s.lastPulseTime + PULSE_ON_TIME + g)
      let rest := motorRunG s2 gs
      (rest.1,
        (if s.pulseState = false ∧ s2.pulseState = true then [s2.motorDirection]
         else []) ++ rest.2)

/-- The time-erased mirror of `motorRunG`. -/
def motorAbsRun (a : MotorAbs) : Nat → MotorAbs × List Bool
  | 0 => (a, [])
  | n + 1 =>
      let a2 := astep a
      let rest := motorAbsRun a2 n
      (rest.1,
        (if a.pulseState = false ∧ a2.pulseState = true then [a2.motorDirection]
         else []) ++ rest.2)

theorem abst_conc (a : MotorAbs) (t : Nat) : (a.conc t).abst = a := rfl

theorem motorTick_abst (s : MotorState) (t : Nat)
    (ht : s.lastPulseTime + PULSE_ON_TIME ≤ t) :
    (motorTick s t).abst = astep s.abst := by
  have helapsed : t - s.lastPulseTime ≥ PULSE_ON_TIME := by
    simp only [PULSE_ON_TIME] at ht ⊢
    omega
  have helapsed0 : PULSE_ON_TIME - (0 : Nat) ≥ PULSE_ON_TIME := by omega
  cases hrun : s.motorRunning with
  | false =>
      simp [motorTick, astep, MotorAbs.conc, MotorState.abst, hrun]
  | true =>
      simp only [motorTick, astep, MotorAbs.conc, MotorState.abst, hrun,
        if_true, updateMotorPulse, stopMotor, PULSE_OFF_TIME, PULSE_ON_TIME]
      simp only [PULSE_ON_TIME] at helapsed
      cases hps : s.pulseState with
      | true => simp [hps, helapsed]
      | false =>
          simp only [hps, Bool.false_eq_true, if_false, Nat.sub_zero,
            ge_iff_le, le_refl, if_true, helapsed]
          split <;> split <;> rfl

theorem motorRunG_abst : ∀ (gs : List Nat) (s : MotorState),
    ((motorRunG s gs).1).abst = (motorAbsRun s.abst gs.length).1 ∧
    (motorRunG s gs).2 = (motorAbsRun s.abst gs.length).2 := by
  intro gs
  induction gs with
  | nil => intro s; exact ⟨rfl, rfl⟩
  | cons g gs ih =>
      intro s
      have hb := motorTick_abst s (s.lastPulseTime + PULSE_ON_TIME + g)
        (by omega)
      have hps := congrArg MotorAbs.pulseState hb
      have hdir := congrArg MotorAbs.motorDirection hb
      simp only [MotorState.abst] at hps hdir
      obtain ⟨ih1, ih2⟩ := ih (motorTick s (s.lastPulseTime + PULSE_ON_TIME + g))
      constructor
      · simp only [motorRunG, motorAbsRun, List.length_cons]
        rw [ih1, hb]
      · simp only [motorRunG, motorAbsRun, List.length_cons]
        rw [ih2, hb, hps, hdir]
        rfl

theorem astep_stopped (a : MotorAbs) (h : a.motorRunning = false) :
    astep a = a := by
  have hcond : (a.conc 0).motorRunning = false := h
  simp only [astep, motorTick, hcond, Bool.false_eq_true, if_false]
  exact abst_conc a 0

theorem motorAbsRun_stopped : ∀ (n : Nat) (a : MotorAbs),
    a.motorRunning = false → motorAbsRun a n = (a, []) := by
  intro n
  induction n with
  | zero => intro a _; rfl
  | succ n ih =>
      intro a h
      have hnofire : ¬(a.pulseState = false ∧ a.pulseState = true) := by
        intro hcontra
        rw [hcontra.1] at hcontra
        exact Bool.false_ne_true hcontra.2
      simp only [motorAbsRun, astep_stopped a h, ih a h, if_neg hnofire,
        List.nil_append]

theorem motorAbsRun_add : ∀ (m n : Nat) (a : MotorAbs),
    motorAbsRun a (m + n) =
      ((motorAbsRun (motorAbsRun a m).1 n).1,
        (motorAbsRun a m).2 ++ (motorAbsRun (motorAbsRun a m).1 n).2) := by
  intro m
  induction m with
  | zero => intro n a; simp [motorAbsRun]
  | succ m ih =>
      intro n a
      rw [show m + 1 + n = (m + n) + 1 by omega]
      simp only [motorAbsRun]
      rw [ih n (astep a)]
      simp [List.append_assoc]

/-- The sequencer state left behind by `stopMotor`: stopped, both pins
cut, counters cleared, total persisted, direction reset to forward. -/
def motorStoppedAbs : MotorAbs :=
  { motorRunning := false, motorDirection := true, pulseState := false,
    pulseCount := 0, sequenceCount := 0, pulsesInCurrentSequence := 0,
    forwardPin := false, backwardPin := false, eepromSaved := true }

theorem motorAbsRun_twenty :
    motorAbsRun (startMotor 0).abst 20 =
      (motorStoppedAbs,
        [true, true, true, false, true, true, true, true, false]) := by
  decide

/-- **C8.** With 4 forward pulses, 1 backward pulse and 2 sequences, a
motor start produces exactly 10 on-phases — the start pulse plus nine
Off-to-On transitions — with direction pattern forward ×4, backward,
forward ×4, backward, over every tick schedule in which each tick falls
at least one full pulse duration after the previous phase origin and at
least 20 ticks occur; the sequencer then stops by itself with both pins
cut, all counters cleared and the total persisted; the direction flips to
backward exactly when the per-sequence pulse count reaches 4 and resets
to forward at sequence close; a tick earlier than the 100 ms phase
duration changes nothing. -/
theorem c8_motor_pulse_sequence :
    (∀ (t0 : Nat) (gs : List Nat), 20 ≤ gs.length →
      (startMotor t0).motorDirection :: (motorRunG (startMotor t0) gs).2 =
        [true, true, true, true, false, true, true, true, true, false] ∧
      ((motorRunG (startMotor t0) gs).1).abst = motorStoppedAbs) ∧
    (∀ t0 : Nat, (startMotor t0).pulseState = true ∧
      (startMotor t0).forwardPin = true ∧
      (startMotor t0).backwardPin = false) ∧
    (∀ s : MotorState, s.pulseState = false →
      s.pulsesInCurrentSequence + 1 = FORWARD_PULSES →
      s.motorDirection = true →
      (updateMotorPulse s (s.lastPulseTime + PULSE_OFF_TIME)).motorDirection =
        false) ∧
    (∀ s : MotorState, s.pulseState = false →
      s.pulsesInCurrentSequence + 1 = FORWARD_PULSES + BACKWARD_PULSES →
      s.sequenceCount + 1 < TOTAL_SEQUENCES →
      (updateMotorPulse s (s.lastPulseTime + PULSE_OFF_TIME)).motorDirection =
          true ∧
      (updateMotorPulse s
        (s.lastPulseTime + PULSE_OFF_TIME)).pulsesInCurrentSequence = 0) ∧
    (∀ (s : MotorState) (t : Nat), t < s.lastPulseTime + PULSE_ON_TIME →
      updateMotorPulse s t = s) := by
  refine ⟨?_, fun t0 => ⟨rfl, rfl, rfl⟩, ?_, ?_, ?_⟩
  · intro t0 gs hlen
    obtain ⟨m, hm⟩ : ∃ m, gs.length = 20 + m := ⟨gs.length - 20, by omega⟩
    obtain ⟨hsim1, hsim2⟩ := motorRunG_abst gs (startMotor t0)
    have hstart : (startMotor t0).abst = (startMotor 0).abst := rfl
    rw [hstart, hm, motorAbsRun_add 20 m, motorAbsRun_twenty] at hsim1 hsim2
    rw [motorAbsRun_stopped m motorStoppedAbs rfl] at hsim1 hsim2
    simp only [List.append_nil] at hsim1 hsim2
    exact ⟨by rw [hsim2]; rfl, hsim1⟩
  · intro s hps hpis hdir
    simp only [FORWARD_PULSES] at hpis
    simp only [updateMotorPulse, hps, Bool.false_eq_true, if_false,
      PULSE_OFF_TIME, FORWARD_PULSES, BACKWARD_PULSES, TOTAL_SEQUENCES]
    rw [if_pos (show s.lastPulseTime + 100 - s.lastPulseTime ≥ 100 by omega)]
    rw [if_neg (show ¬ s.pulsesInCurrentSequence + 1 ≥ 4 + 1 by omega)]
    simp only
    rw [if_pos (⟨by omega, hdir⟩ :
      s.pulsesInCurrentSequence + 1 ≥ 4 ∧ s.motorDirection = true)]
  · intro s hps hpis hseq
    simp only [FORWARD_PULSES, BACKWARD_PULSES] at hpis
    simp only [TOTAL_SEQUENCES] at hseq
    simp only [updateMotorPulse, hps, Bool.false_eq_true, if_false,
      PULSE_OFF_TIME, FORWARD_PULSES, BACKWARD_PULSES, TOTAL_SEQUENCES]
    rw [if_pos (show s.lastPulseTime + 100 - s.lastPulseTime ≥ 100 by omega)]
    rw [if_pos (show s.pulsesInCurrentSequence + 1 ≥ 4 + 1 by omega)]
    rw [if_neg (show ¬ s.sequenceCount + 1 ≥ 2 by omega)]
    exact ⟨rfl, rfl⟩
  · intro s t hlt
    simp only [PULSE_ON_TIME] at hlt
    simp only [updateMotorPulse, PULSE_ON_TIME, PULSE_OFF_TIME]
    split <;> rw [if_neg (by omega)]

/-- Witness for C8: the canonical schedule of 20 ticks, each exactly one
pulse duration after the previous phase origin, yields the 10-pulse
pattern and the stopped, persisted final state. -/
theorem c8_motor_pulse_sequence_witness :
    (startMotor 0).motorDirection ::
        (motorRunG (startMotor 0) (List.replicate 20 0)).2 =
      [true, true, true, true, false, true, true, true, true, false] ∧
    ((motorRunG (startMotor 0) (List.replicate 20 0)).1).abst =
      motorStoppedAbs :=
  c8_motor_pulse_sequence.1 0 (List.replicate 20 0) (by decide)

theorem motorTick_pins (s : MotorState) (t : Nat)
    (h : ¬(s.forwardPin = true ∧ s.backwardPin = true)) :
    ¬((motorTick s t).forwardPin = true ∧
      (motorTick s t).backwardPin = true) := by
  have hgen : ∀ b : Bool, ¬(b = true ∧ (!b) = true) := by decide
  by_cases hrun : s.motorRunning = true
  · simp only [motorTick, hrun, if_true]
    simp only [updateMotorPulse, stopMotor]
    split
    · split
      · simp
      · exact h
    · split
      · split
        · split
          · simp
          · simp
        · exact hgen _
      · exact h
  · simp only [motorTick, if_neg hrun]
    exact h

theorem foldl_motorTick_pins : ∀ (ts : List Nat) (s : MotorState),
    ¬(s.forwardPin = true ∧ s.backwardPin = true) →
      ¬((ts.foldl motorTick s).forwardPin = true ∧
        (ts.foldl motorTick s).backwardPin = true) := by
  intro ts
  induction ts with
  | nil => intro s h; exact h
  | cons t ts ih =>
      intro s h
      exact ih (motorTick s t) (motorTick_pins s t h)

/-- **C10.** The two H-bridge direction outputs are never both driven
high: every state reachable from a motor start through any schedule of
`updateMotorPulse` ticks — including every On phase in either direction,
every Off phase and the stop — has at most one of the forward and
backward pins high, and `stopMotor` cuts both unconditionally. -/
theorem c10_hbridge_pins_exclusive :
    (∀ (t0 : Nat) (ts : List Nat),
      ¬((ts.foldl motorTick (startMotor t0)).forwardPin = true ∧
        (ts.foldl motorTick (startMotor t0)).backwardPin = true)) ∧
    (∀ s : MotorState,
      ¬((stopMotor s).forwardPin = true ∧ (stopMotor s).backwardPin = true)) ∧
    (∀ t0 : Nat,
      ¬((startMotor t0).forwardPin = true ∧
        (startMotor t0).backwardPin = true)) := by
  refine ⟨?_, ?_, ?_⟩
  · intro t0 ts
    refine foldl_motorTick_pins ts (startMotor t0) ?_
    intro hcontra
    exact Bool.false_ne_true hcontra.2
  · intro s
    intro hcontra
    exact Bool.false_ne_true hcontra.1
  · intro t0
    intro hcontra
    exact Bool.false_ne_true hcontra.2

/-! ## Animation engine: `startFireworkAnimation`, `updateAnimation`
(lines 353-419)

The animation state collects the globals of lines 68-76 plus the frame
buffer.  Two aspects are parameters of the embedding: the random centre
and colour picked for the next burst (`random(...)` calls) enter as
arguments, and the floating-point cosine/sine sampling of the expanding
ring (lines 379-386) is abstracted as a function `RingFn` from the radius
step and centre to the sampled points — every property proved below holds
for all such functions, and floating-point arithmetic itself is outside
the embedding. -/

/-- The ring-sampling abstraction: radius step and centre to points. -/
abbrev RingFn := Nat → Int × Int → List (Int × Int)

/-- `strip.Color(255, 255, 255)`. -/
def whiteColor : Nat := 0xFFFFFF

/-- The animation globals (lines 68-76) plus the frame buffer. -/
structure AnimState where
  animationPlaying : Bool
  animationStartTime : Nat
  animationStep : Nat
  fireworkBurst : Nat
  flashStep : Nat
  sparkleStep : Nat
  fireworkCenterX : Int
  fireworkCenterY : Int
  fireworkColor : Nat
  frame : Frame
deriving DecidableEq

/-- `startFireworkAnimation()` (lines 353-368): arm the animation with a
fresh random centre and colour. -/
def startFireworkAnimation (rx ry : Int) (rc now : Nat) (s : AnimState) :
    AnimState :=
  { s with animationPlaying := true, animationStartTime := now,
           animationStep := 0, fireworkBurst := 0, sparkleStep := 0,
           flashStep := 0, fireworkCenterX := rx, fireworkCenterY := ry,
           fireworkColor := rc }

/-- The expanding-ring frame of lines 378-387: clear, then plot the
in-bounds sampled points at the current radius step in the burst colour. -/
def drawRing (ring : RingFn) (s : AnimState) : Frame :=
  (ring s.animationStep (s.fireworkCenterX, s.fireworkCenterY)).foldl
    (fun f p =>
      if 0 ≤ p.1 ∧ p.1 < (MATRIX_WIDTH : Int) ∧ 0 ≤ p.2 ∧
          p.2 < (MATRIX_HEIGHT : Int) then
        setMatrixPixel p.1 p.2 s.fireworkColor f
      else f)
    clearFrame

/-- `updateAnimation()` (lines 370-419).  The `currentTime` argument
mirrors the `millis()` read at line 371, which the function never uses:
each call advances the state machine unconditionally. -/
def updateAnimation (ring : RingFn) (rx ry : Int) (rc : Nat) (s : AnimState)
    (_currentTime : Nat) : AnimState :=
  if s.fireworkBurst < 3 then
    if s.animationStep < 8 then
      { s with frame := drawRing ring s,
               animationStep := s.animationStep + 1 }
    else
      if s.fireworkBurst + 1 < 3 then
        { s with fireworkBurst := s.fireworkBurst + 1, fireworkCenterX := rx,
                 fireworkCenterY := ry, fireworkColor := rc,
                 animationStep := 0, sparkleStep := 0 }
      else
        { s with fireworkBurst := s.fireworkBurst + 1 }
  else if s.flashStep < 6 then
    { s with frame := if s.flashStep % 2 = 0 then fillFrame whiteColor
               else clearFrame,
             flashStep := s.flashStep + 1 }
  else
    { s with animationPlaying := false, frame := clearFrame }

/-- The phase counters of the animation machine. -/
structure AnimPhase where
  animationPlaying : Bool
  animationStep : Nat
  fireworkBurst : Nat
  flashStep : Nat
deriving DecidableEq

/-- Project the phase counters out of an animation state. -/
def AnimState.phase (s : AnimState) : AnimPhase :=
  ⟨s.animationPlaying, s.animationStep, s.fireworkBurst, s.flashStep⟩

/-- The phase schedule followed by `updateAnimation`, on the counters
alone: radius steps 0..7 within a burst, bursts 0..2, six flash steps,
then idle. -/
def phaseStep (p : AnimPhase) : AnimPhase :=
  if p.fireworkBurst < 3 then
    if p.animationStep < 8 then { p with animationStep := p.animationStep + 1 }
    else
      if p.fireworkBurst + 1 < 3 then
        { p with fireworkBurst := p.fireworkBurst + 1, animationStep := 0 }
      else { p with fireworkBurst := p.fireworkBurst + 1 }
  else if p.flashStep < 6 then { p with flashStep := p.flashStep + 1 }
  else { p with animationPlaying := false }

/-- Iterate `updateAnimation` with per-call random and time streams. -/
def animRun (ring : RingFn) (rnd : Nat → Int × Int × Nat)
    (times : Nat → Nat) (s : AnimState) : Nat → AnimState
  | 0 => s
  | n + 1 =>
      updateAnimation ring (rnd n).1 (rnd n).2.1 (rnd n).2.2
        (animRun ring rnd times s n) (times n)

/-- Iterate the phase schedule. -/
def phaseRun (p : AnimPhase) : Nat → AnimPhase
  | 0 => p
  | n + 1 => phaseStep (phaseRun p n)

theorem updateAnimation_phase (ring : RingFn) (rx ry : Int) (rc : Nat)
    (s : AnimState) (t : Nat) :
    (updateAnimation ring rx ry rc s t).phase = phaseStep s.phase := by
  simp only [updateAnimation, phaseStep, AnimState.phase]
  split
  · split
    · rfl
    · split <;> rfl
  · split <;> rfl

theorem animRun_phase (ring : RingFn) (rnd : Nat → Int × Int × Nat)
    (times : Nat → Nat) (s : AnimState) :
    ∀ n : Nat, (animRun ring rnd times s n).phase = phaseRun s.phase n := by
  intro n
  induction n with
  | zero => rfl
  | succ n ih =>
      simp only [animRun, phaseRun, updateAnimation_phase, ih]

theorem updateAnimation_complete (ring : RingFn) (rx ry : Int) (rc : Nat)
    (s : AnimState) (t : Nat) (hb : s.fireworkBurst = 3)
    (hf : s.flashStep = 6) :
    updateAnimation ring rx ry rc s t =
      { s with animationPlaying := false, frame := clearFrame } := by
  rw [updateAnimation, if_neg (by omega), if_neg (by omega)]

/-- The initial values of the animation globals (lines 68-76) with a
cleared frame. -/
def initialAnimState : AnimState :=
  { animationPlaying := false, animationStartTime := 0, animationStep := 0,
    fireworkBurst := 0, flashStep := 0, sparkleStep := 0,
    fireworkCenterX := 0, fireworkCenterY := 0, fireworkColor := 0,
    frame := clearFrame }

/-- A concrete ring function that samples no points, for closed
instances. -/
def ringNone : RingFn := fun _ _ => []

/-- **C9 counterexample.** Advancement of the armed animation is not
gated by elapsed time: two consecutive `updateAnimation` calls at the
very same millisecond timestamp both advance the state machine (the
radius step reaches 2), and the result of a call is identical whatever
timestamp it is given — the `millis()` read at line 371 is never used. -/
theorem c9_no_time_gate_counterexample :
    (updateAnimation ringNone 0 0 0
      (updateAnimation ringNone 0 0 0
        (startFireworkAnimation 16 2 255 0 initialAnimState) 0) 0).animationStep
      = 2 ∧
    updateAnimation ringNone 0 0 0
        (startFireworkAnimation 16 2 255 0 initialAnimState) 0 =
      updateAnimation ringNone 0 0 0
        (startFireworkAnimation 16 2 255 0 initialAnimState) 999999 := by
  exact ⟨by decide, rfl⟩

/-- **C9 (amended).** Once triggered, the animation advances exactly one
phase transition per `updateAnimation` call, unconditionally — the
elapsed-time read is unused, and the call is identical for any
timestamp — through the schedule Idle → BurstExpanding (bursts 0..2,
each with radius steps 0..7, drawing the ring over a cleared frame) →
FinalFlash (6 steps alternating solid white and cleared) → Idle: from the
armed phase the machine is still playing for 34 calls, passing burst
boundaries after calls 9 and 18, entering the flash phase after call 27
and finishing after call 34 with the playing flag cleared and the frame
cleared — for every ring geometry and every stream of random centres and
colours. -/
theorem c9_animation_phase_schedule :
    (∀ (ring : RingFn) (rx ry : Int) (rc : Nat) (s : AnimState) (t1 t2 : Nat),
      updateAnimation ring rx ry rc s t1 = updateAnimation ring rx ry rc s t2) ∧
    (∀ (ring : RingFn) (rx ry : Int) (rc : Nat) (s : AnimState) (t : Nat),
      (updateAnimation ring rx ry rc s t).phase = phaseStep s.phase) ∧
    (∀ (ring : RingFn) (rnd : Nat → Int × Int × Nat) (times : Nat → Nat)
      (s : AnimState) (n : Nat),
      (animRun ring rnd times s n).phase = phaseRun s.phase n) ∧
    (∀ (rx ry : Int) (rc now : Nat) (s : AnimState),
      (startFireworkAnimation rx ry rc now s).phase = ⟨true, 0, 0, 0⟩) ∧
    ((∀ k, k < 34 → (phaseRun ⟨true, 0, 0, 0⟩ k).animationPlaying = true) ∧
      phaseRun ⟨true, 0, 0, 0⟩ 9 = ⟨true, 0, 1, 0⟩ ∧
      phaseRun ⟨true, 0, 0, 0⟩ 18 = ⟨true, 0, 2, 0⟩ ∧
      phaseRun ⟨true, 0, 0, 0⟩ 27 = ⟨true, 8, 3, 0⟩ ∧
      phaseRun ⟨true, 0, 0, 0⟩ 34 = ⟨false, 8, 3, 6⟩) ∧
    (∀ (ring : RingFn) (rx ry : Int) (rc : Nat) (s : AnimState) (t : Nat),
      s.fireworkBurst < 3 → s.animationStep < 8 →
        updateAnimation ring rx ry rc s t =
          { s with frame := drawRing ring s,
                   animationStep := s.animationStep + 1 }) ∧
    (∀ (ring : RingFn) (rx ry : Int) (rc : Nat) (s : AnimState) (t : Nat),
      3 ≤ s.fireworkBurst → s.flashStep < 6 →
        updateAnimation ring rx ry rc s t =
          { s with frame := if s.flashStep % 2 = 0 then fillFrame whiteColor
                     else clearFrame,
                   flashStep := s.flashStep + 1 }) ∧
    (∀ (ring : RingFn) (rnd : Nat → Int × Int × Nat) (times : Nat → Nat)
      (s : AnimState), s.phase = ⟨true, 0, 0, 0⟩ →
        (animRun ring rnd times s 34).animationPlaying = false ∧
        (animRun ring rnd times s 34).frame = clearFrame) := by
  refine ⟨fun ring rx ry rc s t1 t2 => rfl, updateAnimation_phase,
    animRun_phase, fun rx ry rc now s => rfl,
    ⟨by decide, by decide, by decide, by decide, by decide⟩, ?_, ?_, ?_⟩
  · intro ring rx ry rc s t hb hs
    rw [updateAnimation, if_pos hb, if_pos hs]
  · intro ring rx ry rc s t hb hf
    rw [updateAnimation, if_neg (by omega), if_pos hf]
  · intro ring rnd times s hphase
    have h33 : (animRun ring rnd times s 33).phase = ⟨true, 8, 3, 6⟩ := by
      rw [animRun_phase, hphase]
      decide
    have hb := congrArg AnimPhase.fireworkBurst h33
    have hf := congrArg AnimPhase.flashStep h33
    simp only [AnimState.phase] at hb hf
    have hfin : animRun ring rnd times s 34 =
        { animRun ring rnd times s 33 with animationPlaying := false,
                                           frame := clearFrame } := by
      show updateAnimation ring _ _ _ (animRun ring rnd times s 33) _ = _
      exact updateAnimation_complete _ _ _ _ _ _ hb hf
    rw [hfin]
    exact ⟨rfl, rfl⟩

/-- Witness for C9: with the empty ring geometry, constant random and
time streams, the animation armed from the power-on state is idle again
with a cleared frame after 34 calls, and the burst-draw clause applies at
the armed state. -/
theorem c9_animation_phase_schedule_witness :
    (animRun ringNone (fun _ => (0, 0, 0)) (fun _ => 0)
      (startFireworkAnimation 16 2 255 0 initialAnimState)
      34).animationPlaying = false ∧
    updateAnimation ringNone 0 0 0
        (startFireworkAnimation 16 2 255 0 initialAnimState) 0 =
      { startFireworkAnimation 16 2 255 0 initialAnimState with
          frame := drawRing ringNone
            (startFireworkAnimation 16 2 255 0 initialAnimState),
          animationStep := 1 } := by
  constructor
  · exact (c9_animation_phase_schedule.2.2.2.2.2.2.2 ringNone
      (fun _ => (0, 0, 0)) (fun _ => 0)
      (startFireworkAnimation 16 2 255 0 initialAnimState) (by decide)).1
  · exact c9_animation_phase_schedule.2.2.2.2.2.1 ringNone 0 0 0
      (startFireworkAnimation 16 2 255 0 initialAnimState) 0 (by decide)
      (by decide)

end CoinSorter
